import Mathlib

set_option maxHeartbeats 1000000

namespace RM

/-! # String primitives

JavaScript string operations used by `ResumeModal.jsx`, embedded as structural
recursion over `List Char` so that every definition evaluates by `decide`/`rfl`. -/

/-- ASCII lower-casing of one character (JavaScript `toLowerCase` restricted to
the ASCII range, which is all the component compares against): code points
65-90 (`A`-`Z`) shift by 32, everything else is unchanged. -/
def lowerChar (c : Char) : Char :=
  if 65 ≤ c.toNat ∧ c.toNat ≤ 90 then Char.ofNat (c.toNat + 32) else c

/-- JavaScript `toLowerCase` on the character list of a string. -/
def lowerList (l : List Char) : List Char := l.map lowerChar

/-- Does the first list occur as an initial segment of the second? -/
def subAt : List Char → List Char → Bool
  | [], _ => true
  | _ :: _, [] => false
  | p :: ps, c :: cs => p == c && subAt ps cs

/-- JavaScript `String.prototype.includes` on char lists. -/
def hasSub : List Char → List Char → Bool
  | pat, [] => pat.isEmpty
  | pat, c :: cs => subAt pat (c :: cs) || hasSub pat cs

/-- JavaScript `String.prototype.split` with a one-character separator. -/
def splitChar (sep : Char) : List Char → List (List Char)
  | [] => [[]]
  | c :: cs =>
    if c = sep then [] :: splitChar sep cs
    else
      match splitChar sep cs with
      | [] => [[c]]
      | g :: gs => (c :: g) :: gs

/-- JavaScript `Array.prototype.pop` on the (always nonempty) result of `split`. -/
def jsLast (xs : List (List Char)) : List Char := xs.getLastD []

/-- JavaScript `s.startsWith(pat)`. -/
def jsStartsWith (s pat : String) : Bool := subAt pat.data s.data

/-- JavaScript `s.includes(pat)`. -/
def hasSubStr (pat s : String) : Bool := hasSub pat.data s.data

/-! # Derived values of the component (ResumeModal.jsx lines 13-20)

`resumeUrl` is the file reference prop; the absent reference (JS `undefined` or
the falsy `""`) is modelled as `""`, which the JS code treats identically. -/

/-- `normalizedUrl` (line 13): prepend the storage prefix unless already present. -/
def normalizedUrl (resumeUrl : String) : String :=
  if jsStartsWith resumeUrl "uploads/" then resumeUrl
  else if resumeUrl = "" then "" else "uploads/" ++ resumeUrl

/-- `fullResumeUrl` (line 14): base url joined with the normalized path. -/
def fullResumeUrl (url resumeUrl : String) : String :=
  if resumeUrl = "" then "" else url ++ "/" ++ normalizedUrl resumeUrl

/-- `fileName` (line 17): `resumeUrl?.split('/').pop() || 'resume'`. -/
def fileName (resumeUrl : String) : String :=
  let seg := jsLast (splitChar '/' resumeUrl.data)
  if seg.isEmpty then "resume" else String.mk seg

/-- `fileExtension` (line 18): `fileName.split('.').pop()?.toLowerCase() || ''`. -/
def fileExtension (resumeUrl : String) : String :=
  String.mk (lowerList (jsLast (splitChar '.' (fileName resumeUrl).data)))

/-- `detectedIsPDF` (line 19). -/
def detectedIsPDF (resumeUrl : String) : Bool := fileExtension resumeUrl == "pdf"

/-- `isDocx` (line 20). -/
def isDocx (resumeUrl : String) : Bool :=
  fileExtension resumeUrl == "docx" || fileExtension resumeUrl == "doc"

/-- The three rendering strategies the spec's classification distinguishes. -/
inductive Classification
  | nativeRenderable
  | convertible
  | unsupported
deriving DecidableEq, Repr

/-- Classification as induced by the component's two extension flags. -/
def classify (resumeUrl : String) : Classification :=
  if detectedIsPDF resumeUrl then .nativeRenderable
  else if isDocx resumeUrl then .convertible
  else .unsupported

/-- Classification keyed directly on an extension string (spec-side restatement). -/
def extClassify (e : String) : Classification :=
  if e == "pdf" then .nativeRenderable
  else if e == "docx" || e == "doc" then .convertible
  else .unsupported

/-! # Spec-side string formulations

Independent formulations of "suffix after the last separator" and of
case-insensitive "ends with", used to state the claims without mentioning the
`split/pop` implementation. -/

/-- The suffix of `l` after the last occurrence of `sep` (all of `l` if absent). -/
def afterLast (sep : Char) (l : List Char) : List Char :=
  (l.reverse.takeWhile (fun c => c != sep)).reverse

/-- Case-insensitive "`s` ends with `t`". -/
def endsWithCI (s t : String) : Bool :=
  subAt (lowerList t.data).reverse (lowerList s.data).reverse

-- Sanity checks on concrete inputs.
example : fileName "resumes/john.pdf" = "john.pdf" := by decide
example : fileExtension "resumes/john.PDF" = "pdf" := by decide
example : fileExtension "resumes/readme" = "readme" := by decide
example : fileExtension "a/file." = "" := by decide
example : fileName "dir/" = "resume" := by decide
example : fullResumeUrl "https://api.x.com" "resumes/john.pdf"
    = "https://api.x.com/uploads/resumes/john.pdf" := by decide
example : fullResumeUrl "https://api.x.com" "uploads/jane.docx"
    = "https://api.x.com/uploads/jane.docx" := by decide
example : classify "files/pdf" = .nativeRenderable := by decide
example : endsWithCI "files/pdf" ".pdf" = false := by decide
example : endsWithCI "a/b.PdF" ".pdf" = true := by decide
example : hasSubStr "Error" "An Error occurred" = true := by decide
example : hasSubStr "Error" "error" = false := by decide

/-! # Component model (ResumeModal.jsx lines 5-128)

The component's five `useState` variables, its two `useEffect` hooks (with
their dependency arrays), the docx fetch-and-convert promise chain, and the
iframe `onLoad`/`onError` handlers are embedded as an explicit state machine.

React lifecycle embedding: after every prop change or asynchronous callback,
React re-renders and then runs each effect whose dependency array changed,
where an effect's body reads the values captured by the render that scheduled
it; state updates from effects trigger a further render-and-effects pass.
`runEffects` is one such pass; `commit` iterates passes to the fixpoint (three
passes always suffice for this pair of effects - the third is the identity). -/

/-- The five `useState` variables (lines 6-10). -/
structure MState where
  isPDF : Bool
  loadError : Bool
  docxContent : Option String
  docxError : Option String
  loadingDocx : Bool
deriving DecidableEq, Repr

/-- Initial state (lines 6-10): `isPDF` defaults to `true`. -/
def initState : MState := ⟨true, false, none, none, false⟩

/-- Outcome of one fetch-and-convert chain (lines 38-56): a non-ok HTTP status
throws `Error('Failed to fetch DOCX file')`; a mammoth conversion failure (or a
network-level rejection) reaches the catch with its own message; success yields
the converted HTML (`result.value`). -/
inductive FetchOutcome
  | ok (html : String)
  | badStatus
  | failed (msg : String)
deriving DecidableEq, Repr

/-- The `.then`/`.catch` state updates of the chain (lines 47-55). -/
def applyOutcome (o : FetchOutcome) (s : MState) : MState :=
  match o with
  | .ok html => { s with docxContent := some html, loadingDocx := false }
  | .badStatus => { s with docxError := some "Failed to fetch DOCX file", loadingDocx := false }
  | .failed msg => { s with docxError := some msg, loadingDocx := false }

/-- `handleIframeError` (lines 61-65). -/
def handleIframeError (s : MState) : MState :=
  { s with isPDF := false, loadError := true }

/-- The iframe `onLoad` verification (lines 111-127): `doc = some t` models an
accessible `contentDocument` with body text `t`; `doc = none` models a missing
or cross-origin-restricted document (the `catch` path). -/
def errorMarkers (t : String) : Bool :=
  hasSubStr "404" t || hasSubStr "Not Found" t || hasSubStr "Error" t

def onIframeLoad : Option String → MState → MState
  | some t, s => if errorMarkers t then handleIframeError s else s
  | none, s => s

/-- A component instance: props (`url` base and current `resumeUrl`), state,
the multiset of in-flight fetch targets, the log of every fetch ever started,
and the last-seen dependency arrays of the two effects (`none` before mount). -/
structure Config where
  url : String
  cur : String
  state : MState
  pending : List String
  fetches : List String
  d1 : Option (Bool × String)
  d2 : Option (Bool × String × Option String × Option String)
deriving DecidableEq, Repr

/-- Dependency array of effect 1 (line 30): `[detectedIsPDF, resumeUrl]`. -/
def deps1 (c : Config) : Bool × String := (detectedIsPDF c.cur, c.cur)

/-- Dependency array of effect 2 (line 57):
`[isDocx, fullResumeUrl, docxContent, docxError]`. -/
def deps2 (c : Config) : Bool × String × Option String × Option String :=
  (isDocx c.cur, fullResumeUrl c.url c.cur, c.state.docxContent, c.state.docxError)

/-- The state after effect 1 (lines 23-29) ran, if its dependencies changed:
re-derive the classification and clear conversion state, but only when a
reference is present (the body is guarded by `if (resumeUrl)`). -/
def effect1State (c : Config) : MState :=
  if c.d1 = some (deps1 c) then c.state
  else if c.cur = "" then c.state
  else { c.state with isPDF := detectedIsPDF c.cur, loadError := false,
                      docxContent := none, docxError := none }

/-- Effect 2's guard (line 34): `isDocx && fullResumeUrl && !docxContent &&
!docxError`, read from the values captured by the render (the pass's entry
state), not from effect 1's updates. -/
def fireGuard (c : Config) : Bool :=
  isDocx c.cur && !(fullResumeUrl c.url c.cur == "")
    && (c.state.docxContent == none) && (c.state.docxError == none)

/-- One render-then-effects pass: effect 1 (lines 23-29), then effect 2
(lines 32-57), which starts the fetch-and-convert chain when its guard holds
(recording `setLoadingDocx(true)`, `setDocxError(null)` and the new in-flight
fetch). Both effects' dependency arrays are recorded for the next pass. -/
def runEffects (c : Config) : Config :=
  if c.d2 = some (deps2 c) then
    { c with state := effect1State c, d1 := some (deps1 c), d2 := some (deps2 c) }
  else if fireGuard c then
    { c with state := { effect1State c with loadingDocx := true, docxError := none },
             pending := c.pending ++ [fullResumeUrl c.url c.cur],
             fetches := c.fetches ++ [fullResumeUrl c.url c.cur],
             d1 := some (deps1 c), d2 := some (deps2 c) }
  else
    { c with state := effect1State c, d1 := some (deps1 c), d2 := some (deps2 c) }

/-- Run render-and-effects passes to the fixpoint (three passes suffice). -/
def commit (c : Config) : Config := runEffects (runEffects (runEffects c))

/-- External events a mounted instance can receive. -/
inductive Ev
  | setRef (r : String)
  | resolve (target : String) (o : FetchOutcome)
  | iframeLoad (doc : Option String)
  | iframeErr
deriving DecidableEq, Repr

/-- Whether an event changes the file reference. -/
def isSetRef : Ev → Bool
  | .setRef _ => true
  | _ => false

/-- Event semantics. A `resolve` only fires for a fetch that was actually
started and still in flight; crucially, its result is applied to the state
unconditionally - the code's promise callbacks (lines 47-55) contain no
comparison of the fetch's target against the current reference. -/
def step (c : Config) : Ev → Config
  | .setRef r => commit { c with cur := r }
  | .resolve t o =>
      if t ∈ c.pending then
        commit { c with state := applyOutcome o c.state, pending := c.pending.erase t }
      else c
  | .iframeLoad doc => commit { c with state := onIframeLoad doc c.state }
  | .iframeErr => commit { c with state := handleIframeError c.state }

def initConfig (url r : String) : Config := ⟨url, r, initState, [], [], none, none⟩

/-- Mounting the component with reference `r`: first render plus effect passes. -/
def mount (url r : String) : Config := commit (initConfig url r)

/-- The configuration after a trace of events from a mount. -/
def run (url r : String) (evs : List Ev) : Config := evs.foldl step (mount url r)

/-- What the modal body shows (lines 104-182), plus `noRender` for the early
`return null` (line 77). Panels carry their download link (href, name). -/
inductive View
  | noRender
  | pdfIframe (src : String)
  | loadingView
  | errorPanel (msg dlHref dlName : String)
  | htmlView (content : String)
  | emptyBody
  | unsupportedPanel (failed : Bool) (dlHref dlName : String)
deriving DecidableEq, Repr

/-- The render function: the JSX ternary chain of the modal body. -/
def render (c : Config) : View :=
  if c.cur = "" then .noRender
  else if c.state.isPDF && !c.state.loadError then .pdfIframe (fullResumeUrl c.url c.cur)
  else if isDocx c.cur then
    if c.state.loadingDocx then .loadingView
    else
      match c.state.docxError with
      | some m => .errorPanel m (fullResumeUrl c.url c.cur) (fileName c.cur)
      | none =>
        match c.state.docxContent with
        | some h => .htmlView h
        | none => .emptyBody
  else .unsupportedPanel c.state.loadError (fullResumeUrl c.url c.cur) (fileName c.cur)

/-- The header download action (lines 89-97), rendered whenever a reference is
present, independent of the preview state. -/
def headerDownload (c : Config) : Option (String × String) :=
  if c.cur = "" then none else some (fullResumeUrl c.url c.cur, fileName c.cur)

/-- Is the view one of the four the spec's invariant enumerates? -/
def isFourView : View → Bool
  | .pdfIframe _ => true
  | .htmlView _ => true
  | .errorPanel _ _ _ => true
  | .unsupportedPanel _ _ _ => true
  | _ => false

/-- Is the view one of the five actually-renderable bodies? -/
def isFiveView : View → Bool
  | .pdfIframe _ => true
  | .loadingView => true
  | .htmlView _ => true
  | .errorPanel _ _ _ => true
  | .unsupportedPanel _ _ _ => true
  | _ => false

-- Sanity checks of the machine on concrete traces.
example : render (mount "http://h" "cv.docx") = .loadingView := by decide
example : (mount "http://h" "cv.docx").pending = ["http://h/uploads/cv.docx"] := by decide
example : render (mount "http://h" "cv.pdf") = .pdfIframe "http://h/uploads/cv.pdf" := by decide
example : render (mount "http://h" "cv.txt") = .unsupportedPanel false "http://h/uploads/cv.txt" "cv.txt" := by decide
example :
    render (run "http://h" "cv.docx"
      [.resolve "http://h/uploads/cv.docx" (.ok "<p>x</p>")]) = .htmlView "<p>x</p>" := by decide
example :
    render (run "http://h" "cv.docx"
      [.resolve "http://h/uploads/cv.docx" .badStatus])
      = .errorPanel "Failed to fetch DOCX file" "http://h/uploads/cv.docx" "cv.docx" := by decide

-- The stale-result scenario of C1, concretely.
example :
    render (run "https://api.x.com" "a.docx"
      [.setRef "b.docx",
       .resolve "https://api.x.com/uploads/b.docx" (.ok "B"),
       .resolve "https://api.x.com/uploads/a.docx" (.ok "A")]) = .htmlView "A" := by decide

/-! # List lemmas -/

theorem takeWhile_all {α : Type} {p : α → Bool} :
    ∀ {xs : List α}, (∀ a ∈ xs, p a = true) → xs.takeWhile p = xs := by
  intro xs
  induction xs with
  | nil => intro _; rfl
  | cons x xs ih =>
    intro h
    simp [List.takeWhile_cons, h x (by simp), ih (fun a ha => h a (by simp [ha]))]

theorem takeWhile_all_append {α : Type} {p : α → Bool} :
    ∀ {xs : List α} (ys : List α), (∀ a ∈ xs, p a = true) →
      (xs ++ ys).takeWhile p = xs ++ ys.takeWhile p := by
  intro xs
  induction xs with
  | nil => intro ys _; rfl
  | cons x xs ih =>
    intro ys h
    simp [List.cons_append, List.takeWhile_cons, h x (by simp),
      ih ys (fun a ha => h a (by simp [ha]))]

theorem takeWhile_cut {α : Type} {p : α → Bool} {b : α} (hb : p b = false) :
    ∀ (xs ys : List α), (xs ++ b :: ys).takeWhile p = xs.takeWhile p := by
  intro xs
  induction xs with
  | nil => intro ys; simp [List.takeWhile_cons, hb]
  | cons x xs ih =>
    intro ys
    simp only [List.cons_append, List.takeWhile_cons]
    cases hpx : p x with
    | true => simp [ih ys]
    | false => simp

theorem subAt_iff : ∀ (xs ys : List Char),
    subAt xs ys = true ↔ ∃ zs, ys = xs ++ zs := by
  intro xs
  induction xs with
  | nil => intro ys; simp [subAt]
  | cons x xs ih =>
    intro ys
    cases ys with
    | nil => simp [subAt]
    | cons y ys =>
      simp only [subAt, Bool.and_eq_true, beq_iff_eq, ih ys]
      constructor
      · rintro ⟨rfl, zs, rfl⟩; exact ⟨zs, rfl⟩
      · rintro ⟨zs, h⟩
        cases h
        exact ⟨rfl, zs, rfl⟩

theorem splitChar_ne_nil (sep : Char) : ∀ (l : List Char), splitChar sep l ≠ [] := by
  intro l
  cases l with
  | nil => simp [splitChar]
  | cons c cs =>
    simp only [splitChar]
    split
    · simp
    · split <;> simp

theorem splitChar_no_sep (sep : Char) :
    ∀ (l : List Char), sep ∉ l → splitChar sep l = [l] := by
  intro l
  induction l with
  | nil => intro _; rfl
  | cons c cs ih =>
    intro h
    have hc : ¬ c = sep := fun hc => h (by simp [hc])
    have hcs : sep ∉ cs := fun hm => h (by simp [hm])
    simp only [splitChar, if_neg hc, ih hcs]

theorem splitChar_two_le (sep : Char) :
    ∀ (l : List Char), sep ∈ l → 2 ≤ (splitChar sep l).length := by
  intro l
  induction l with
  | nil => intro h; cases h
  | cons c cs ih =>
    intro h
    by_cases hc : c = sep
    · have h1 : 1 ≤ (splitChar sep cs).length := by
        cases hr : splitChar sep cs with
        | nil => exact absurd hr (splitChar_ne_nil sep cs)
        | cons g gs => simp
      simp only [splitChar, if_pos hc, List.length_cons]
      omega
    · have hm : sep ∈ cs := by
        rcases List.mem_cons.mp h with h1 | h1
        · exact absurd h1.symm hc
        · exact h1
      have h2 := ih hm
      simp only [splitChar, if_neg hc]
      cases hr : splitChar sep cs with
      | nil => exact absurd hr (splitChar_ne_nil sep cs)
      | cons g gs =>
        rw [hr] at h2
        simpa using h2

theorem getLastD_of_ne_nil {α : Type} (l : List α) (h : l ≠ []) (d e : α) :
    l.getLastD d = l.getLastD e := by
  cases l with
  | nil => exact absurd rfl h
  | cons x xs => rw [List.getLastD_cons, List.getLastD_cons]

/-- The suffix after an absent separator is the whole list. -/
theorem afterLast_no_sep (sep : Char) (l : List Char) (h : sep ∉ l) :
    afterLast sep l = l := by
  unfold afterLast
  rw [takeWhile_all, List.reverse_reverse]
  intro a ha
  have : a ∈ l := by simpa using ha
  have : ¬ a = sep := fun he => h (he ▸ this)
  simp [this]

/-- The suffix after the last separator, when the separator splits the list. -/
theorem afterLast_append_sep (sep : Char) (xs s : List Char) (h : sep ∉ s) :
    afterLast sep (xs ++ sep :: s) = s := by
  unfold afterLast
  have : (xs ++ sep :: s).reverse = s.reverse ++ sep :: xs.reverse := by
    simp [List.reverse_append]
  rw [this, takeWhile_cut (by simp), takeWhile_all, List.reverse_reverse]
  intro a ha
  have : a ∈ s := by simpa using ha
  have : ¬ a = sep := fun he => h (he ▸ this)
  simp [this]

/-- A separator-free suffix rides along. -/
theorem afterLast_append (sep : Char) (xs ys : List Char) (h : sep ∉ ys) :
    afterLast sep (xs ++ ys) = afterLast sep xs ++ ys := by
  unfold afterLast
  rw [List.reverse_append, takeWhile_all_append, List.reverse_append, List.reverse_reverse]
  intro a ha
  have : a ∈ ys := by simpa using ha
  have : ¬ a = sep := fun he => h (he ▸ this)
  simp [this]

/-- `afterLast` is a suffix: something precedes it. -/
theorem afterLast_is_suffix (sep : Char) (l : List Char) :
    ∃ t, l = t ++ afterLast sep l := by
  refine ⟨((l.reverse.dropWhile (fun c => c != sep))).reverse, ?_⟩
  unfold afterLast
  have := List.takeWhile_append_dropWhile (p := fun c => c != sep) (l := l.reverse)
  calc l = l.reverse.reverse := by rw [List.reverse_reverse]
    _ = (l.reverse.takeWhile (fun c => c != sep) ++
          l.reverse.dropWhile (fun c => c != sep)).reverse := by rw [this]
    _ = _ := by rw [List.reverse_append]

/-- Decomposition at the last separator when one occurs. -/
theorem afterLast_decomp (sep : Char) :
    ∀ (l : List Char), sep ∈ l →
      (∃ xs, l = xs ++ sep :: afterLast sep l) ∧ sep ∉ afterLast sep l := by
  intro l
  induction l using List.reverseRecOn with
  | nil => intro h; cases h
  | append_singleton ys a ih =>
    intro h
    by_cases ha : a = sep
    · subst ha
      rw [afterLast_append_sep a ys [] (by simp)]
      exact ⟨⟨ys, by simp⟩, by simp⟩
    · have hm : sep ∈ ys := by
        rcases List.mem_append.mp h with h1 | h1
        · exact h1
        · simp at h1; exact absurd h1.symm ha
      obtain ⟨⟨xs, hxs⟩, hnot⟩ := ih hm
      rw [afterLast_append sep ys [a] (by simpa using fun he => ha he.symm)]
      constructor
      · refine ⟨xs, ?_⟩
        conv_lhs => rw [hxs]
        rw [List.append_assoc, List.cons_append]
      · intro hmem
        rcases List.mem_append.mp hmem with h1 | h1
        · exact hnot h1
        · simp at h1; exact ha h1.symm

/-- Bridge: `split(sep).pop()` computes the suffix after the last separator. -/
theorem jsLast_splitChar (sep : Char) :
    ∀ (l : List Char), jsLast (splitChar sep l) = afterLast sep l := by
  intro l
  induction l with
  | nil => rfl
  | cons c cs ih =>
    by_cases hc : c = sep
    · subst hc
      have e1 : splitChar c (c :: cs) = [] :: splitChar c cs := by
        simp [splitChar]
      have lhs : jsLast (splitChar c (c :: cs)) = jsLast (splitChar c cs) := by
        rw [e1]; unfold jsLast; rw [List.getLastD_cons]
      rw [lhs, ih]
      unfold afterLast
      rw [List.reverse_cons, takeWhile_cut (by simp)]
    · by_cases hm : sep ∈ cs
      · cases hr : splitChar sep cs with
        | nil => exact absurd hr (splitChar_ne_nil sep cs)
        | cons g gs =>
          have hgs : gs ≠ [] := by
            have h2 := splitChar_two_le sep cs hm
            rw [hr] at h2
            cases gs with
            | nil => simp at h2
            | cons _ _ => simp
          have e1 : splitChar sep (c :: cs) = (c :: g) :: gs := by
            simp [splitChar, if_neg hc, hr]
          have lhs : jsLast (splitChar sep (c :: cs)) = jsLast (splitChar sep cs) := by
            rw [e1, hr]; unfold jsLast
            rw [List.getLastD_cons, List.getLastD_cons]
            exact getLastD_of_ne_nil gs hgs _ _
          rw [lhs, ih]
          obtain ⟨⟨xs, hxs⟩, hnot⟩ := afterLast_decomp sep cs hm
          calc afterLast sep cs
              = afterLast sep ((c :: xs) ++ sep :: afterLast sep cs) := by
                rw [afterLast_append_sep sep (c :: xs) _ hnot]
            _ = afterLast sep (c :: cs) := by rw [List.cons_append, ← hxs]
      · have hr := splitChar_no_sep sep cs hm
        have e1 : splitChar sep (c :: cs) = [c :: cs] := by
          simp [splitChar, if_neg hc, hr]
        have lhs : jsLast (splitChar sep (c :: cs)) = c :: cs := by
          rw [e1]; unfold jsLast; rw [List.getLastD_cons, List.getLastD_nil]
        rw [lhs, afterLast_no_sep sep (c :: cs) ?hns]
        case hns =>
          intro hmem
          rcases List.mem_cons.mp hmem with h1 | h1
          · exact hc h1.symm
          · exact hm h1

/-! # Lower-casing lemmas -/

theorem toNat_ofNat_valid (n : Nat) (h : n < 0xd800) : (Char.ofNat n).toNat = n := by
  unfold Char.ofNat
  rw [dif_pos (Or.inl h)]
  rfl

theorem char_toNat_inj {c d : Char} (h : c.toNat = d.toNat) : c = d := by
  have h2 := Char.ofNat_toNat c
  rw [h, Char.ofNat_toNat] at h2
  exact h2.symm

theorem lowerChar_toNat (c : Char) :
    (lowerChar c).toNat = if 65 ≤ c.toNat ∧ c.toNat ≤ 90 then c.toNat + 32 else c.toNat := by
  unfold lowerChar
  split_ifs with h
  · exact toNat_ofNat_valid _ (by omega)
  · rfl

theorem lowerChar_dot {c : Char} (h : lowerChar c = '.') : c = '.' := by
  have h2 := congrArg Char.toNat h
  rw [lowerChar_toNat] at h2
  have hd : ('.' : Char).toNat = 46 := by decide
  rw [hd] at h2
  split_ifs at h2 with hr
  · omega
  · exact char_toNat_inj (by rw [h2, hd])

theorem lowerChar_slash {c : Char} (h : lowerChar c = '/') : c = '/' := by
  have h2 := congrArg Char.toNat h
  rw [lowerChar_toNat] at h2
  have hd : ('/' : Char).toNat = 47 := by decide
  rw [hd] at h2
  split_ifs at h2 with hr
  · omega
  · exact char_toNat_inj (by rw [h2, hd])

theorem lowerChar_idem (c : Char) : lowerChar (lowerChar c) = lowerChar c := by
  apply char_toNat_inj
  rw [lowerChar_toNat, lowerChar_toNat]
  split_ifs <;> omega

theorem lowerList_idem (l : List Char) : lowerList (lowerList l) = lowerList l := by
  unfold lowerList
  rw [List.map_map]
  exact List.map_congr_left (fun a _ => lowerChar_idem a)

/-! # Map decomposition lemmas -/

theorem map_split {α β : Type} (f : α → β) :
    ∀ (a : List β) (l : List α) (b : List β), l.map f = a ++ b →
      ∃ a0 b0, l = a0 ++ b0 ∧ a0.map f = a ∧ b0.map f = b := by
  intro a
  induction a with
  | nil => intro l b h; exact ⟨[], l, by simp, rfl, by simpa using h⟩
  | cons x a ih =>
    intro l b h
    cases l with
    | nil => simp at h
    | cons y l =>
      simp only [List.map_cons, List.cons_append, List.cons.injEq] at h
      obtain ⟨h1, h2⟩ := h
      obtain ⟨a0, b0, rfl, ha, hb⟩ := ih l b h2
      exact ⟨y :: a0, b0, rfl, by simp [h1, ha], hb⟩

theorem map_cons_split {α β : Type} (f : α → β) (l : List α) (y : β) (ys : List β)
    (h : l.map f = y :: ys) : ∃ c cs, l = c :: cs ∧ f c = y ∧ cs.map f = ys := by
  cases l with
  | nil => simp at h
  | cons c cs =>
    simp only [List.map_cons, List.cons.injEq] at h
    exact ⟨c, cs, rfl, h.1, h.2⟩

/-! # Ends-with characterisation -/

theorem endsWithCI_iff (p t : String) :
    endsWithCI p t = true ↔ ∃ l, lowerList p.data = l ++ lowerList t.data := by
  unfold endsWithCI
  rw [subAt_iff]
  constructor
  · rintro ⟨zs, h⟩
    refine ⟨zs.reverse, ?_⟩
    have h2 := congrArg List.reverse h
    simpa [List.reverse_append] using h2
  · rintro ⟨l, h⟩
    refine ⟨l.reverse, ?_⟩
    rw [h, List.reverse_append]

/-! # Bridge lemmas: the derived values via `afterLast` -/

theorem fileName_eq (r : String) :
    fileName r =
      if afterLast '/' r.data = [] then "resume" else String.mk (afterLast '/' r.data) := by
  unfold fileName
  rw [jsLast_splitChar]
  by_cases h : afterLast '/' r.data = [] <;> simp [h]

theorem fileExtension_eq (r : String) :
    fileExtension r = String.mk (lowerList (afterLast '.' (fileName r).data)) := by
  unfold fileExtension
  rw [jsLast_splitChar]

theorem fileExtension_no_dot (r : String) (h : '.' ∉ (fileName r).data) :
    fileExtension r = String.mk (lowerList (fileName r).data) := by
  rw [fileExtension_eq, afterLast_no_sep _ _ h]

/-- For a reference that ends (case-insensitively) in `'.' :: s`, with `s`
dot-free, slash-free and already lower-case, the derived extension is `s`. -/
theorem ext_of_endsWithCI (p : String) (s : List Char)
    (hdot : '.' ∉ s) (hsl : '/' ∉ s) (hlow : lowerList s = s)
    (h : endsWithCI p (String.mk ('.' :: s)) = true) :
    fileExtension p = String.mk s := by
  obtain ⟨l, hl⟩ := (endsWithCI_iff p (String.mk ('.' :: s))).mp h
  have hmkd : (String.mk ('.' :: s)).data = '.' :: s := rfl
  rw [hmkd] at hl
  have hls : lowerList ('.' :: s) = '.' :: s := by
    unfold lowerList
    rw [List.map_cons]
    unfold lowerList at hlow
    rw [hlow, show lowerChar '.' = '.' from by decide]
  rw [hls] at hl
  obtain ⟨a0, b0, hp, _, hb0⟩ := map_split lowerChar l p.data ('.' :: s) hl
  obtain ⟨c1, b1, hb0e, hc1, hb1⟩ := map_cons_split lowerChar b0 '.' s hb0
  have hc1d : c1 = '.' := lowerChar_dot hc1
  subst hc1d
  subst hb0e
  have hb1dot : '.' ∉ b1 := by
    intro hx
    exact hdot (by rw [← hb1]; exact (by simpa using List.mem_map_of_mem lowerChar hx :
      lowerChar '.' ∈ b1.map lowerChar))
  have hb1sl : '/' ∉ b1 := by
    intro hx
    exact hsl (by rw [← hb1]; exact (by simpa using List.mem_map_of_mem lowerChar hx :
      lowerChar '/' ∈ b1.map lowerChar))
  have hsfree : '/' ∉ ('.' :: b1) := by
    intro hx
    rcases List.mem_cons.mp hx with h1 | h1
    · exact absurd h1.symm (by decide)
    · exact hb1sl h1
  have hfn : (fileName p).data = afterLast '/' a0 ++ '.' :: b1 := by
    rw [fileName_eq, hp, afterLast_append '/' a0 ('.' :: b1) hsfree]
    rw [if_neg (by simp)]
  rw [fileExtension_eq, hfn, afterLast_append_sep '.' _ b1 hb1dot]
  rw [show lowerList b1 = s from hb1]

/-- Converse: if the file name contains a dot and the derived extension is `s`,
the reference ends (case-insensitively) in `'.' :: s`. -/
theorem endsWithCI_of_ext (p : String) (s : List Char)
    (hdot_in : '.' ∈ (fileName p).data) (hext : fileExtension p = String.mk s) :
    endsWithCI p (String.mk ('.' :: s)) = true := by
  have hfn : (fileName p).data = afterLast '/' p.data := by
    rw [fileName_eq]
    by_cases h0 : afterLast '/' p.data = []
    · rw [fileName_eq, if_pos h0] at hdot_in
      exact absurd hdot_in (by decide)
    · rw [if_neg h0]
  obtain ⟨t, ht⟩ := afterLast_is_suffix '/' p.data
  obtain ⟨⟨xs, hxs⟩, hnot⟩ := afterLast_decomp '.' (fileName p).data hdot_in
  have hextd : lowerList (afterLast '.' (fileName p).data) = s := by
    have h2 := congrArg String.data (fileExtension_eq p ▸ hext)
    simpa using h2
  apply (endsWithCI_iff p (String.mk ('.' :: s))).mpr
  refine ⟨lowerList t ++ lowerList xs, ?_⟩
  have hps : p.data = t ++ (xs ++ '.' :: afterLast '.' (fileName p).data) := by
    rw [← hxs, hfn, ← ht]
  have hlows : lowerList s = s := by
    rw [← hextd, lowerList_idem]
  calc lowerList p.data
      = lowerList t ++ (lowerList xs ++ lowerChar '.' :: lowerList (afterLast '.' (fileName p).data)) := by
        rw [hps]; unfold lowerList; simp [List.map_append]
    _ = (lowerList t ++ lowerList xs) ++ '.' :: s := by
        rw [hextd, show lowerChar '.' = '.' from by decide, List.append_assoc]
    _ = (lowerList t ++ lowerList xs) ++ lowerList (String.mk ('.' :: s)).data := by
        have : lowerList ('.' :: s) = '.' :: s := by
          unfold lowerList
          unfold lowerList at hlows
          simp [List.map_cons, hlows, show lowerChar '.' = '.' from by decide]
        rw [show (String.mk ('.' :: s)).data = '.' :: s from rfl, this]

theorem classify_eq_extClassify (p : String) :
    classify p = extClassify (fileExtension p) := rfl

/-! # Claims C3, C4, C5 -/

/-- C3, counterexample: the claim says a last path segment without a dot gives
the empty extension; for `"resumes/readme"` the segment `"readme"` has no dot,
yet the code derives extension `"readme"`, not `""`. -/
theorem C3_counterexample :
    '.' ∉ (fileName "resumes/readme").data ∧
      fileExtension "resumes/readme" = "readme" ∧
      fileExtension "resumes/readme" ≠ "" := by decide

/-- C3, amended: `fileName` is the last path segment (`"resume"` when that
segment is empty or the reference is absent); `fileExtension` is the
lower-cased suffix of the file name after its last dot, and when the file name
contains no dot it is the whole lower-cased file name (so it is empty only for
a name ending in a dot, never for a dot-free name). -/
theorem C3_name_and_extension (p : String) :
    (fileName p =
      if afterLast '/' p.data = [] then "resume" else String.mk (afterLast '/' p.data)) ∧
    (fileExtension p = String.mk (lowerList (afterLast '.' (fileName p).data))) ∧
    ('.' ∉ (fileName p).data → fileExtension p = String.mk (lowerList (fileName p).data)) :=
  ⟨fileName_eq p, fileExtension_eq p, fun h => fileExtension_no_dot p h⟩

theorem C3_name_and_extension_witness :
    '.' ∉ (fileName "docs/readme").data ∧
      fileExtension "docs/readme" = String.mk (lowerList (fileName "docs/readme").data) :=
  ⟨by decide, (C3_name_and_extension "docs/readme").2.2 (by decide)⟩

/-- C4, counterexample: the claim says every path not ending in
`.pdf`/`.docx`/`.doc` is unsupported; `"files/pdf"` ends in none of them, yet
the code classifies it as native-renderable (the dot-free segment `"pdf"`
becomes its own extension). -/
theorem C4_counterexample :
    classify "files/pdf" = Classification.nativeRenderable ∧
      endsWithCI "files/pdf" ".pdf" = false ∧
      endsWithCI "files/pdf" ".docx" = false ∧
      endsWithCI "files/pdf" ".doc" = false ∧
      classify "files/pdf" ≠ Classification.unsupported := by decide

/-- C4, amended: paths ending (case-insensitively) in `.pdf` are
native-renderable and paths ending in `.docx`/`.doc` are convertible, and a
path whose file name contains a dot but ends in none of the three is
unsupported; however a path whose file name contains no dot is classified by
the whole lower-cased file name treated as the extension (so dot-free names
`pdf`, `docx`, `doc` are classified native/convertible, not unsupported). -/
theorem C4_classification (p : String) :
    (endsWithCI p ".pdf" = true → classify p = Classification.nativeRenderable) ∧
    (endsWithCI p ".docx" = true → classify p = Classification.convertible) ∧
    (endsWithCI p ".doc" = true → classify p = Classification.convertible) ∧
    ('.' ∈ (fileName p).data → endsWithCI p ".pdf" = false →
      endsWithCI p ".docx" = false → endsWithCI p ".doc" = false →
      classify p = Classification.unsupported) ∧
    ('.' ∉ (fileName p).data →
      classify p = extClassify (String.mk (lowerList (fileName p).data))) := by
  refine ⟨?h1, ?h2, ?h3, ?h4, ?h5⟩
  case h1 =>
    intro h
    have hext := ext_of_endsWithCI p ['p', 'd', 'f'] (by decide) (by decide) (by decide) h
    rw [classify_eq_extClassify, hext]
    decide
  case h2 =>
    intro h
    have hext := ext_of_endsWithCI p ['d', 'o', 'c', 'x'] (by decide) (by decide) (by decide) h
    rw [classify_eq_extClassify, hext]
    decide
  case h3 =>
    intro h
    have hext := ext_of_endsWithCI p ['d', 'o', 'c'] (by decide) (by decide) (by decide) h
    rw [classify_eq_extClassify, hext]
    decide
  case h4 =>
    intro hin h1 h2 h3
    by_cases e1 : fileExtension p = "pdf"
    · have hc := endsWithCI_of_ext p ['p', 'd', 'f'] hin e1
      have h1' : endsWithCI p (String.mk ('.' :: ['p', 'd', 'f'])) = false := h1
      simp [hc] at h1'
    · by_cases e2 : fileExtension p = "docx"
      · have hc := endsWithCI_of_ext p ['d', 'o', 'c', 'x'] hin e2
        have h2' : endsWithCI p (String.mk ('.' :: ['d', 'o', 'c', 'x'])) = false := h2
        simp [hc] at h2'
      · by_cases e3 : fileExtension p = "doc"
        · have hc := endsWithCI_of_ext p ['d', 'o', 'c'] hin e3
          have h3' : endsWithCI p (String.mk ('.' :: ['d', 'o', 'c'])) = false := h3
          simp [hc] at h3'
        · rw [classify_eq_extClassify]
          unfold extClassify
          simp [e1, e2, e3]
  case h5 =>
    intro h
    rw [classify_eq_extClassify, fileExtension_no_dot p h]

theorem C4_classification_witness :
    (endsWithCI "a/b.PDF" ".pdf" = true ∧
      classify "a/b.PDF" = Classification.nativeRenderable) ∧
    (endsWithCI "cv.DocX" ".docx" = true ∧
      classify "cv.DocX" = Classification.convertible) ∧
    ('.' ∈ (fileName "a/cv.txt").data ∧
      classify "a/cv.txt" = Classification.unsupported) ∧
    ('.' ∉ (fileName "files/docx").data ∧
      classify "files/docx" = extClassify (String.mk (lowerList (fileName "files/docx").data))) :=
  ⟨⟨by decide, (C4_classification "a/b.PDF").1 (by decide)⟩,
   ⟨by decide, (C4_classification "cv.DocX").2.1 (by decide)⟩,
   ⟨by decide, (C4_classification "a/cv.txt").2.2.2.1 (by decide) (by decide) (by decide) (by decide)⟩,
   ⟨by decide, (C4_classification "files/docx").2.2.2.2 (by decide)⟩⟩

/-- C5: for a present path the resolved fetch URL is `base ++ "/" ++ path` when
the path already starts with `uploads/`, and `base ++ "/uploads/" ++ path`
otherwise - the prefix is never applied twice. -/
theorem C5_resolved_url (p b : String) (h : p ≠ "") :
    fullResumeUrl b p =
      if jsStartsWith p "uploads/" then b ++ "/" ++ p else b ++ "/uploads/" ++ p := by
  unfold fullResumeUrl normalizedUrl
  rw [if_neg h]
  by_cases hs : jsStartsWith p "uploads/" = true
  · rw [if_pos hs, if_pos hs]
  · rw [if_neg hs, if_neg hs, if_neg h]
    have h1 : ("/" : String) ++ "uploads/" = "/uploads/" := by decide
    calc b ++ "/" ++ ("uploads/" ++ p)
        = b ++ ("/" ++ ("uploads/" ++ p)) := by rw [String.append_assoc]
      _ = b ++ (("/" ++ "uploads/") ++ p) := by rw [String.append_assoc]
      _ = b ++ ("/uploads/" ++ p) := by rw [h1]
      _ = b ++ "/uploads/" ++ p := by rw [String.append_assoc]

theorem C5_resolved_url_witness :
    fullResumeUrl "https://api.x.com" "resumes/john.pdf"
        = "https://api.x.com/uploads/resumes/john.pdf" ∧
      fullResumeUrl "https://api.x.com" "uploads/jane.docx"
        = "https://api.x.com/uploads/jane.docx" :=
  ⟨(C5_resolved_url "resumes/john.pdf" "https://api.x.com" (by decide)).trans (by decide),
   (C5_resolved_url "uploads/jane.docx" "https://api.x.com" (by decide)).trans (by decide)⟩

/-! # Flag lemmas -/

theorem isDocx_ne_empty {r : String} (h : isDocx r = true) : r ≠ "" := by
  intro he
  subst he
  exact absurd h (by decide)

theorem detectedIsPDF_ne_empty {r : String} (h : detectedIsPDF r = true) : r ≠ "" := by
  intro he
  subst he
  exact absurd h (by decide)

theorem isDocx_not_pdf {r : String} (h : isDocx r = true) : detectedIsPDF r = false := by
  simp only [isDocx, Bool.or_eq_true, beq_iff_eq] at h
  rcases h with h | h <;> simp [detectedIsPDF, h]

theorem detectedIsPDF_not_docx {r : String} (h : detectedIsPDF r = true) : isDocx r = false := by
  simp only [detectedIsPDF, beq_iff_eq] at h
  simp [isDocx, h]

theorem fullResumeUrl_ne_empty (url : String) {r : String} (h : r ≠ "") :
    fullResumeUrl url r ≠ "" := by
  unfold fullResumeUrl
  rw [if_neg h]
  intro he
  have h2 := congrArg String.data he
  rw [String.data_append, String.data_append] at h2
  simp at h2

/-! # Pass lemmas: `runEffects`, `commit` -/

/-- A configuration whose recorded dependency arrays match the current ones. -/
def Stable (c : Config) : Prop :=
  c.d1 = some (deps1 c) ∧ c.d2 = some (deps2 c)

/-- The settled-docx invariant: while a convertible reference has neither
content nor an error, its conversion is loading. -/
def docxIdle (c : Config) : Prop :=
  isDocx c.cur = true → c.state.docxContent = none → c.state.docxError = none →
    c.state.loadingDocx = true

def Inv (c : Config) : Prop := Stable c ∧ docxIdle c

theorem effect1State_skip {c : Config} (h1 : c.d1 = some (deps1 c)) :
    effect1State c = c.state := by
  unfold effect1State
  rw [if_pos h1]

theorem runEffects_stable {c : Config} (h : Stable c) : runEffects c = c := by
  unfold runEffects
  rw [if_pos h.2, effect1State_skip h.1, ← h.1, ← h.2]

theorem runEffects_d1 (c : Config) : (runEffects c).d1 = some (deps1 c) := by
  unfold runEffects
  split_ifs <;> rfl

theorem runEffects_d2 (c : Config) : (runEffects c).d2 = some (deps2 c) := by
  unfold runEffects
  split_ifs <;> rfl

theorem runEffects_cur (c : Config) : (runEffects c).cur = c.cur := by
  unfold runEffects
  split_ifs <;> rfl

theorem runEffects_url (c : Config) : (runEffects c).url = c.url := by
  unfold runEffects
  split_ifs <;> rfl

theorem deps1_runEffects (c : Config) : deps1 (runEffects c) = deps1 c := by
  unfold deps1
  rw [runEffects_cur]

theorem fireGuard_iff (c : Config) :
    fireGuard c = true ↔
      isDocx c.cur = true ∧ fullResumeUrl c.url c.cur ≠ "" ∧
        c.state.docxContent = none ∧ c.state.docxError = none := by
  unfold fireGuard
  simp [and_assoc]

/-- With effect 1 settled, a pass never changes `docxContent`/`docxError`. -/
theorem runEffects_preserves_ce {c : Config} (h1 : c.d1 = some (deps1 c)) :
    (runEffects c).state.docxContent = c.state.docxContent ∧
    (runEffects c).state.docxError = c.state.docxError := by
  unfold runEffects
  split_ifs with h2 hg
  · rw [effect1State_skip h1]
    exact ⟨rfl, rfl⟩
  · obtain ⟨_, _, hco, her⟩ := (fireGuard_iff c).mp hg
    rw [effect1State_skip h1]
    exact ⟨rfl, by rw [her]⟩
  · rw [effect1State_skip h1]
    exact ⟨rfl, rfl⟩

theorem stable_two (c : Config) : Stable (runEffects (runEffects c)) := by
  have h1 : (runEffects c).d1 = some (deps1 (runEffects c)) := by
    rw [runEffects_d1, deps1_runEffects]
  constructor
  · simp only [runEffects_d1, deps1_runEffects]
  · simp only [runEffects_d2]
    unfold deps2
    simp only [runEffects_cur, runEffects_url, (runEffects_preserves_ce h1).1,
      (runEffects_preserves_ce h1).2]

theorem commit_eq_two (c : Config) : commit c = runEffects (runEffects c) := by
  unfold commit
  exact runEffects_stable (stable_two c)

theorem commit_stable (c : Config) : Stable (commit c) := by
  rw [commit_eq_two]
  exact stable_two c

theorem commit_of_stable {c : Config} (h : Stable c) : commit c = c := by
  unfold commit
  rw [runEffects_stable h, runEffects_stable h, runEffects_stable h]

theorem commit_cur (c : Config) : (commit c).cur = c.cur := by
  rw [commit_eq_two, runEffects_cur, runEffects_cur]

theorem commit_url (c : Config) : (commit c).url = c.url := by
  rw [commit_eq_two, runEffects_url, runEffects_url]

/-- Precondition under which a commit settles the docx states: whenever a
convertible reference has neither content nor error, either its load flag is
already set or effect 2 is due to run. -/
def firePre (c : Config) : Prop :=
  isDocx c.cur = true → c.state.docxContent = none → c.state.docxError = none →
    (c.state.loadingDocx = true ∨ c.d2 ≠ some (deps2 c))

theorem isDocx_full_ne {url r : String} (h : isDocx r = true) :
    fullResumeUrl url r ≠ "" :=
  fullResumeUrl_ne_empty url (isDocx_ne_empty h)

theorem pass1_pre (c : Config) (pre : firePre c) : firePre (runEffects c) := by
  unfold runEffects
  split_ifs with h2 hg
  · intro hdocx hcont herr
    have hdx : isDocx c.cur = true := hdocx
    by_cases h1 : c.d1 = some (deps1 c)
    · rw [effect1State_skip h1] at hcont herr ⊢
      left
      rcases pre hdx hcont herr with hl | hr
      · exact hl
      · exact absurd h2 hr
    · by_cases hcur : c.cur = ""
      · rw [show effect1State c = c.state from by unfold effect1State; rw [if_neg h1, if_pos hcur]]
          at hcont herr ⊢
        left
        rcases pre hdx hcont herr with hl | hr
        · exact hl
        · exact absurd h2 hr
      · have hre : effect1State c =
            { c.state with isPDF := detectedIsPDF c.cur, loadError := false,
                           docxContent := none, docxError := none } := by
          unfold effect1State
          rw [if_neg h1, if_neg hcur]
        rw [hre] at hcont herr ⊢
        by_cases hce : c.state.docxContent = none ∧ c.state.docxError = none
        · left
          rcases pre hdx hce.1 hce.2 with hl | hr
          · exact hl
          · exact absurd h2 hr
        · right
          intro heq
          have hab := Option.some_injective _ heq
          unfold deps2 at hab
          have hc2 := congrArg (fun x => x.2.2.1) hab
          have hc3 := congrArg (fun x => x.2.2.2) hab
          simp only [hre] at hc2 hc3
          exact hce ⟨hc2, hc3⟩
  · intro _ _ _
    left
    rfl
  · intro hdocx hcont herr
    have hdx : isDocx c.cur = true := hdocx
    have hU : fullResumeUrl c.url c.cur ≠ "" := isDocx_full_ne hdx
    by_cases h1 : c.d1 = some (deps1 c)
    · rw [effect1State_skip h1] at hcont herr
      exact absurd ((fireGuard_iff c).mpr ⟨hdx, hU, hcont, herr⟩) hg
    · by_cases hcur : c.cur = ""
      · exact absurd hcur (isDocx_ne_empty hdx)
      · have hre : effect1State c =
            { c.state with isPDF := detectedIsPDF c.cur, loadError := false,
                           docxContent := none, docxError := none } := by
          unfold effect1State
          rw [if_neg h1, if_neg hcur]
        by_cases hce : c.state.docxContent = none ∧ c.state.docxError = none
        · exact absurd ((fireGuard_iff c).mpr ⟨hdx, hU, hce.1, hce.2⟩) hg
        · right
          intro heq
          have hab := Option.some_injective _ heq
          unfold deps2 at hab
          have hc2 := congrArg (fun x => x.2.2.1) hab
          have hc3 := congrArg (fun x => x.2.2.2) hab
          simp only [hre] at hc2 hc3
          exact hce ⟨hc2, hc3⟩

theorem pass2_idle (c : Config) (h1 : c.d1 = some (deps1 c)) (pre : firePre c) :
    docxIdle (runEffects c) := by
  unfold runEffects
  split_ifs with h2 hg
  · intro hdocx hcont herr
    rw [effect1State_skip h1] at hcont herr ⊢
    rcases pre hdocx hcont herr with hl | hr
    · exact hl
    · exact absurd h2 hr
  · intro _ _ _
    rfl
  · intro hdocx hcont herr
    rw [effect1State_skip h1] at hcont herr
    exact absurd ((fireGuard_iff c).mpr
      ⟨hdocx, isDocx_full_ne hdocx, hcont, herr⟩) hg

theorem commit_inv (c : Config) (pre : firePre c) : Inv (commit c) := by
  refine ⟨commit_stable c, ?_⟩
  rw [commit_eq_two]
  exact pass2_idle (runEffects c) (by rw [runEffects_d1, deps1_runEffects]) (pass1_pre c pre)

theorem onIframeLoad_ce (doc : Option String) (s : MState) :
    (onIframeLoad doc s).docxContent = s.docxContent ∧
    (onIframeLoad doc s).docxError = s.docxError ∧
    (onIframeLoad doc s).loadingDocx = s.loadingDocx := by
  cases doc with
  | none => exact ⟨rfl, rfl, rfl⟩
  | some t =>
    have he : onIframeLoad (some t) s = if errorMarkers t then handleIframeError s else s := rfl
    rw [he]
    unfold handleIframeError
    split_ifs <;> exact ⟨rfl, rfl, rfl⟩

theorem step_inv (c : Config) (hInv : Inv c) (e : Ev) : Inv (step c e) := by
  obtain ⟨⟨hd1, hd2⟩, hidle⟩ := hInv
  cases e with
  | setRef r =>
    apply commit_inv
    intro hdocx hcont herr
    by_cases h2 : c.d2 = some (deps2 { c with cur := r })
    · left
      have hab := Option.some_injective _ (hd2.symm.trans h2)
      unfold deps2 at hab
      have hdx : isDocx c.cur = true := by
        have hfst := congrArg (fun x => x.1) hab
        simp only at hfst
        rw [hfst]
        exact hdocx
      exact hidle hdx hcont herr
    · right
      exact h2
  | resolve t o =>
    simp only [step]
    by_cases hm : t ∈ c.pending
    · rw [if_pos hm]
      apply commit_inv
      intro hdocx hcont herr
      cases o with
      | ok html => exact absurd hcont (by simp [applyOutcome])
      | badStatus => exact absurd herr (by simp [applyOutcome])
      | failed msg => exact absurd herr (by simp [applyOutcome])
    · rw [if_neg hm]
      exact ⟨⟨hd1, hd2⟩, hidle⟩
  | iframeLoad doc =>
    apply commit_inv
    intro hdocx hcont herr
    obtain ⟨hce, her, hld⟩ := onIframeLoad_ce doc c.state
    left
    show (onIframeLoad doc c.state).loadingDocx = true
    rw [hld]
    exact hidle hdocx (hce ▸ hcont) (her ▸ herr)
  | iframeErr =>
    apply commit_inv
    intro hdocx hcont herr
    left
    exact hidle hdocx hcont herr

theorem mount_inv (url r : String) : Inv (mount url r) := by
  apply commit_inv
  intro _ _ _
  right
  simp [initConfig]

theorem run_inv (url r : String) (evs : List Ev) : Inv (run url r evs) := by
  unfold run
  have h0 := mount_inv url r
  revert h0
  generalize mount url r = c
  induction evs generalizing c with
  | nil => exact id
  | cons e evs ih => exact fun h0 => ih _ (step_inv _ h0 e)

/-! # Branch equations for one pass -/

theorem runEffects_same {c : Config} (h2 : c.d2 = some (deps2 c)) :
    runEffects c =
      { c with state := effect1State c, d1 := some (deps1 c), d2 := some (deps2 c) } := by
  unfold runEffects
  rw [if_pos h2]

theorem runEffects_fire {c : Config} (h2 : c.d2 ≠ some (deps2 c)) (hg : fireGuard c = true) :
    runEffects c =
      { c with state := { effect1State c with loadingDocx := true, docxError := none },
               pending := c.pending ++ [fullResumeUrl c.url c.cur],
               fetches := c.fetches ++ [fullResumeUrl c.url c.cur],
               d1 := some (deps1 c), d2 := some (deps2 c) } := by
  unfold runEffects
  rw [if_neg h2, if_pos hg]

theorem runEffects_skip {c : Config} (h2 : c.d2 ≠ some (deps2 c)) (hg : fireGuard c = false) :
    runEffects c =
      { c with state := effect1State c, d1 := some (deps1 c), d2 := some (deps2 c) } := by
  unfold runEffects
  rw [if_neg h2, if_neg (by simp [hg])]

/-! # Mount characterisations -/

/-- Mounting with a convertible reference: the classification settles to
non-PDF, one fetch for the resolved URL starts, and the loading flag is set. -/
theorem mount_docx (url r : String) (h : isDocx r = true) :
    mount url r = ⟨url, r, ⟨false, false, none, none, true⟩,
      [fullResumeUrl url r], [fullResumeUrl url r],
      some (false, r), some (true, fullResumeUrl url r, none, none)⟩ := by
  have hne := isDocx_ne_empty h
  have hpdf := isDocx_not_pdf h
  have hU : fullResumeUrl url r ≠ "" := isDocx_full_ne h
  unfold mount initConfig
  rw [commit_eq_two]
  have hg : fireGuard ⟨url, r, initState, [], [], none, none⟩ = true :=
    (fireGuard_iff _).mpr ⟨h, hU, rfl, rfl⟩
  have e1 : runEffects ⟨url, r, initState, [], [], none, none⟩ =
      ⟨url, r, ⟨false, false, none, none, true⟩, [fullResumeUrl url r], [fullResumeUrl url r],
       some (false, r), some (true, fullResumeUrl url r, none, none)⟩ := by
    rw [runEffects_fire (by simp) hg]
    have he : effect1State ⟨url, r, initState, [], [], none, none⟩ =
        ⟨false, false, none, none, false⟩ := by
      unfold effect1State
      rw [if_neg (by simp), if_neg hne]
      simp [initState, hpdf]
    rw [he]
    simp [deps1, deps2, initState, hpdf, h]
  rw [e1]
  refine runEffects_stable ⟨?_, ?_⟩ <;> simp [deps1, deps2, hpdf, h]

/-- Mounting with a native-renderable (pdf) reference: no fetch starts and the
iframe is the settled view. -/
theorem mount_pdf (url r : String) (h : detectedIsPDF r = true) :
    mount url r = ⟨url, r, ⟨true, false, none, none, false⟩, [], [],
      some (true, r), some (false, fullResumeUrl url r, none, none)⟩ := by
  have hne := detectedIsPDF_ne_empty h
  have hdx := detectedIsPDF_not_docx h
  unfold mount initConfig
  rw [commit_eq_two]
  have hg : fireGuard ⟨url, r, initState, [], [], none, none⟩ = false := by
    unfold fireGuard
    simp [hdx]
  have e1 : runEffects ⟨url, r, initState, [], [], none, none⟩ =
      ⟨url, r, ⟨true, false, none, none, false⟩, [], [],
       some (true, r), some (false, fullResumeUrl url r, none, none)⟩ := by
    rw [runEffects_skip (by simp) hg]
    have he : effect1State ⟨url, r, initState, [], [], none, none⟩ =
        ⟨true, false, none, none, false⟩ := by
      unfold effect1State
      rw [if_neg (by simp), if_neg hne]
      simp [initState, h]
    rw [he]
    simp [deps1, deps2, initState, h, hdx]
  rw [e1]
  refine runEffects_stable ⟨?_, ?_⟩ <;> simp [deps1, deps2, h, hdx]

/-- A commit after a resolution (content or error now present) only records the
new dependency values; no new fetch starts and the state is untouched. -/
theorem commit_resolved (url r : String) (h : isDocx r = true) (st : MState)
    (hch : ¬(st.docxContent = none ∧ st.docxError = none)) (pd fl : List String) :
    commit ⟨url, r, st, pd, fl, some (false, r), some (true, fullResumeUrl url r, none, none)⟩ =
      ⟨url, r, st, pd, fl, some (false, r),
       some (true, fullResumeUrl url r, st.docxContent, st.docxError)⟩ := by
  have hpdf := isDocx_not_pdf h
  rw [commit_eq_two]
  have h2 : (⟨url, r, st, pd, fl, some (false, r),
      some (true, fullResumeUrl url r, none, none)⟩ : Config).d2 ≠
      some (deps2 ⟨url, r, st, pd, fl, some (false, r),
        some (true, fullResumeUrl url r, none, none)⟩) := by
    intro heq
    have hab := Option.some_injective _ heq
    unfold deps2 at hab
    have h3 := congrArg (fun x => x.2.2.1) hab
    have h4 := congrArg (fun x => x.2.2.2) hab
    simp only at h3 h4
    exact hch ⟨h3.symm, h4.symm⟩
  have hgf : fireGuard ⟨url, r, st, pd, fl, some (false, r),
      some (true, fullResumeUrl url r, none, none)⟩ = false := by
    rcases Bool.eq_false_or_eq_true (fireGuard ⟨url, r, st, pd, fl, some (false, r),
      some (true, fullResumeUrl url r, none, none)⟩) with ht | hf
    · obtain ⟨_, _, hc, he⟩ := (fireGuard_iff _).mp ht
      exact absurd ⟨hc, he⟩ hch
    · exact hf
  rw [runEffects_skip h2 hgf]
  have he : effect1State ⟨url, r, st, pd, fl, some (false, r),
      some (true, fullResumeUrl url r, none, none)⟩ = st := by
    apply effect1State_skip
    show some ((false : Bool), r) = some (detectedIsPDF r, r)
    rw [hpdf]
  rw [he, runEffects_stable ⟨rfl, rfl⟩]
  simp [deps1, deps2, hpdf, h]

/-- The full run of a convertible mount followed by its fetch resolution. -/
theorem run_resolve_docx (url r : String) (h : isDocx r = true) (o : FetchOutcome) :
    run url r [Ev.resolve (fullResumeUrl url r) o] =
      ⟨url, r, applyOutcome o ⟨false, false, none, none, true⟩, [], [fullResumeUrl url r],
       some (false, r),
       some (true, fullResumeUrl url r,
         (applyOutcome o ⟨false, false, none, none, true⟩).docxContent,
         (applyOutcome o ⟨false, false, none, none, true⟩).docxError)⟩ := by
  unfold run
  rw [List.foldl_cons, List.foldl_nil, mount_docx url r h]
  simp only [step]
  rw [if_pos (by simp), List.erase_cons_head]
  exact commit_resolved url r h (applyOutcome o ⟨false, false, none, none, true⟩)
    (by cases o <;> simp [applyOutcome]) [] [fullResumeUrl url r]

/-! # No-fetch lemmas -/

theorem commit_no_fetch {c : Config} (h1 : c.d1 = some (deps1 c))
    (hch : ¬(c.state.docxContent = none ∧ c.state.docxError = none)) :
    (commit c).fetches = c.fetches := by
  rw [commit_eq_two]
  by_cases h2 : c.d2 = some (deps2 c)
  · rw [runEffects_stable ⟨h1, h2⟩, runEffects_stable ⟨h1, h2⟩]
  · have hgf : fireGuard c = false := by
      rcases Bool.eq_false_or_eq_true (fireGuard c) with ht | hf
      · obtain ⟨_, _, hc, he⟩ := (fireGuard_iff c).mp ht
        exact absurd ⟨hc, he⟩ hch
      · exact hf
    rw [runEffects_skip h2 hgf, effect1State_skip h1, runEffects_stable ⟨rfl, rfl⟩]

theorem step_no_fetch {c : Config} (hst : Stable c) {e : Ev} (hns : isSetRef e = false) :
    (step c e).fetches = c.fetches ∧ Stable (step c e) := by
  cases e with
  | setRef r => simp [isSetRef] at hns
  | resolve t o =>
    simp only [step]
    by_cases hm : t ∈ c.pending
    · rw [if_pos hm]
      refine ⟨?_, commit_stable _⟩
      apply commit_no_fetch
      · exact hst.1
      · cases o <;> simp [applyOutcome]
    · rw [if_neg hm]
      exact ⟨rfl, hst⟩
  | iframeLoad doc =>
    simp only [step]
    have hstable : Stable { c with state := onIframeLoad doc c.state } := by
      obtain ⟨hce, her, _⟩ := onIframeLoad_ce doc c.state
      refine ⟨hst.1, ?_⟩
      show c.d2 = some (deps2 _)
      rw [hst.2]
      unfold deps2
      rw [hce, her]
    rw [commit_of_stable hstable]
    exact ⟨rfl, hstable⟩
  | iframeErr =>
    simp only [step]
    have hstable : Stable { c with state := handleIframeError c.state } :=
      ⟨hst.1, hst.2⟩
    rw [commit_of_stable hstable]
    exact ⟨rfl, hstable⟩

/-! # Claims C1, C2, C6, C7, C8, C9, C10 -/

/-- C1: the claim requires the stale conversion result of a replaced reference
never to overwrite the state of the current reference. The code's promise
callbacks contain no guard comparing the fetch's target against the current
reference, so the opposite happens: mount `a.docx`, change the reference to
`b.docx` while `a.docx`'s fetch is pending, resolve `b.docx`'s fetch with HTML
`"B"` (the view shows `B`), then resolve the stale `a.docx` fetch with `"A"` -
the component now displays the stale `A` although the current reference is
still `b.docx`. -/
theorem C1_stale_overwrite :
    render (run "https://api.x.com" "a.docx"
        [Ev.setRef "b.docx",
         Ev.resolve "https://api.x.com/uploads/b.docx" (FetchOutcome.ok "B")])
      = View.htmlView "B" ∧
    render (run "https://api.x.com" "a.docx"
        [Ev.setRef "b.docx",
         Ev.resolve "https://api.x.com/uploads/b.docx" (FetchOutcome.ok "B"),
         Ev.resolve "https://api.x.com/uploads/a.docx" (FetchOutcome.ok "A")])
      = View.htmlView "A" ∧
    (run "https://api.x.com" "a.docx"
        [Ev.setRef "b.docx",
         Ev.resolve "https://api.x.com/uploads/b.docx" (FetchOutcome.ok "B"),
         Ev.resolve "https://api.x.com/uploads/a.docx" (FetchOutcome.ok "A")]).cur
      = "b.docx" ∧
    (run "https://api.x.com" "a.docx"
        [Ev.setRef "b.docx",
         Ev.resolve "https://api.x.com/uploads/b.docx" (FetchOutcome.ok "B"),
         Ev.resolve "https://api.x.com/uploads/a.docx" (FetchOutcome.ok "A")]).state.docxContent
      = some "A" := by decide

/-- C2, counterexample: the claim says exactly one of the four views
{iframe, converted HTML, error panel, unsupported panel} is visible in every
reachable state with a present reference; but immediately after mounting a
convertible reference the body shows the loading indicator, which is none of
the four. -/
theorem C2_counterexample :
    (mount "http://h" "cv.docx").cur ≠ "" ∧
    render (mount "http://h" "cv.docx") = View.loadingView ∧
    isFourView (render (mount "http://h" "cv.docx")) = false := by decide

/-- C2, amended: in every reachable state with a present reference the body
shows exactly one view, drawn from the five {PDF iframe, loading indicator,
converted HTML, error panel, unsupported panel} (never the empty docx body),
and the header download action (resolved URL plus derived file name) is
available in every state. -/
theorem C2_view_invariant (url r : String) (evs : List Ev)
    (h : (run url r evs).cur ≠ "") :
    isFiveView (render (run url r evs)) = true ∧
    headerDownload (run url r evs) =
      some (fullResumeUrl (run url r evs).url (run url r evs).cur,
            fileName (run url r evs).cur) := by
  have hinv := run_inv url r evs
  constructor
  · unfold render
    rw [if_neg h]
    by_cases hpdf : ((run url r evs).state.isPDF && !(run url r evs).state.loadError) = true
    · rw [if_pos hpdf]
      rfl
    · rw [if_neg hpdf]
      by_cases hdocx : isDocx (run url r evs).cur = true
      · rw [if_pos hdocx]
        by_cases hload : (run url r evs).state.loadingDocx = true
        · rw [if_pos hload]
          rfl
        · rw [if_neg hload]
          cases herr : (run url r evs).state.docxError with
          | some m => rfl
          | none =>
            cases hcont : (run url r evs).state.docxContent with
            | some v => rfl
            | none => exact absurd (hinv.2 hdocx hcont herr) hload
      · rw [if_neg hdocx]
        rfl
  · unfold headerDownload
    rw [if_neg h]

theorem C2_view_invariant_witness :
    isFiveView (render (run "http://h" "cv.pdf" [])) = true ∧
    headerDownload (run "http://h" "cv.pdf" []) =
      some (fullResumeUrl (run "http://h" "cv.pdf" []).url (run "http://h" "cv.pdf" []).cur,
            fileName (run "http://h" "cv.pdf" []).cur) :=
  C2_view_invariant "http://h" "cv.pdf" [] (by decide)

/-- C6: for every convertible reference whose fetch resolves with a non-ok
HTTP status, the component settles in the fetch-error fallback: the error panel
with the thrown message `Failed to fetch DOCX file` and a download link for the
resolved URL and derived file name; no converted content exists, and the header
download action is also present. -/
theorem C6_fetch_error (url r : String) (h : isDocx r = true) :
    render (run url r [Ev.resolve (fullResumeUrl url r) FetchOutcome.badStatus]) =
        View.errorPanel "Failed to fetch DOCX file" (fullResumeUrl url r) (fileName r) ∧
    (run url r [Ev.resolve (fullResumeUrl url r) FetchOutcome.badStatus]).state.docxContent
        = none ∧
    headerDownload (run url r [Ev.resolve (fullResumeUrl url r) FetchOutcome.badStatus]) =
        some (fullResumeUrl url r, fileName r) := by
  have hne := isDocx_ne_empty h
  rw [run_resolve_docx url r h FetchOutcome.badStatus]
  refine ⟨?_, rfl, ?_⟩
  · simp [render, applyOutcome, hne, h]
  · simp [headerDownload, hne]

theorem C6_fetch_error_witness :
    render (run "http://h" "cv.docx"
        [Ev.resolve (fullResumeUrl "http://h" "cv.docx") FetchOutcome.badStatus]) =
      View.errorPanel "Failed to fetch DOCX file"
        (fullResumeUrl "http://h" "cv.docx") (fileName "cv.docx") :=
  (C6_fetch_error "http://h" "cv.docx" (by decide)).1

/-- C7: for every convertible reference whose fetch succeeds but whose
conversion rejects with an error carrying message `msg`, the component settles
in the conversion-error fallback panel carrying exactly that message text,
with the download link; no converted content exists. -/
theorem C7_conversion_error (url r msg : String) (h : isDocx r = true) :
    render (run url r [Ev.resolve (fullResumeUrl url r) (FetchOutcome.failed msg)]) =
        View.errorPanel msg (fullResumeUrl url r) (fileName r) ∧
    (run url r [Ev.resolve (fullResumeUrl url r) (FetchOutcome.failed msg)]).state.docxContent
        = none := by
  have hne := isDocx_ne_empty h
  rw [run_resolve_docx url r h (FetchOutcome.failed msg)]
  refine ⟨?_, rfl⟩
  simp [render, applyOutcome, hne, h]

theorem C7_conversion_error_witness :
    render (run "http://h" "cv.docx"
        [Ev.resolve (fullResumeUrl "http://h" "cv.docx") (FetchOutcome.failed "bad zip")]) =
      View.errorPanel "bad zip" (fullResumeUrl "http://h" "cv.docx") (fileName "cv.docx") :=
  (C7_conversion_error "http://h" "cv.docx" "bad zip" (by decide)).1

/-- C8: for a fixed convertible reference, the fetch-and-convert chain starts
exactly once at mount, and no trace of resolutions, iframe events or unrelated
re-renders that leaves the reference unchanged ever starts another fetch - in
particular a completed or failed conversion is never retried. -/
theorem C8_fetch_once (url r : String) (h : isDocx r = true) (evs : List Ev)
    (hns : ∀ e ∈ evs, isSetRef e = false) :
    (run url r evs).fetches = [fullResumeUrl url r] ∧
    (run url r evs).fetches.length ≤ 1 := by
  unfold run
  suffices hsuf : ∀ (l : List Ev) (c : Config), Stable c →
      c.fetches = [fullResumeUrl url r] → (∀ e ∈ l, isSetRef e = false) →
      (l.foldl step c).fetches = [fullResumeUrl url r] by
    have h0 : Stable (mount url r) := by
      unfold mount
      exact commit_stable _
    have h1 : (mount url r).fetches = [fullResumeUrl url r] := by
      rw [mount_docx url r h]
    have hres := hsuf evs (mount url r) h0 h1 hns
    exact ⟨hres, by rw [hres]; simp⟩
  intro l
  induction l with
  | nil => exact fun c _ hf _ => hf
  | cons e l ih =>
    intro c hc hf hl
    obtain ⟨hfeq, hstable⟩ := step_no_fetch hc (hl e (by simp))
    exact ih (step c e) hstable (hfeq.trans hf) (fun e2 he2 => hl e2 (by simp [he2]))

theorem C8_fetch_once_witness :
    (∀ e ∈ [Ev.resolve (fullResumeUrl "http://h" "cv.docx") (FetchOutcome.ok "<p>x</p>"),
            Ev.iframeErr], isSetRef e = false) ∧
    (run "http://h" "cv.docx"
        [Ev.resolve (fullResumeUrl "http://h" "cv.docx") (FetchOutcome.ok "<p>x</p>"),
         Ev.iframeErr]).fetches.length ≤ 1 :=
  ⟨by decide,
   (C8_fetch_once "http://h" "cv.docx" (by decide) _ (by decide)).2⟩

/-- C9: on the native-renderable path the mounted view is the PDF iframe; if
the loaded embedded document is accessible and its body text contains an error
marker, the reference is reclassified as failed and the component falls through
to the unsupported-format fallback panel (with its download link); if the
embedded document is not accessible (cross-origin), the state is left exactly
as it was and the iframe remains - the load counts as a success. -/
theorem C9_iframe_verification (url r t : String) (h : detectedIsPDF r = true) :
    render (mount url r) = View.pdfIframe (fullResumeUrl url r) ∧
    (errorMarkers t = true →
      render (run url r [Ev.iframeLoad (some t)]) =
        View.unsupportedPanel true (fullResumeUrl url r) (fileName r)) ∧
    run url r [Ev.iframeLoad none] = mount url r ∧
    render (run url r [Ev.iframeLoad none]) = View.pdfIframe (fullResumeUrl url r) := by
  have hne := detectedIsPDF_ne_empty h
  have hdx := detectedIsPDF_not_docx h
  have hmnt := mount_pdf url r h
  have hnone : run url r [Ev.iframeLoad none] = mount url r := by
    unfold run
    rw [List.foldl_cons, List.foldl_nil]
    simp only [step]
    have hid : onIframeLoad none (mount url r).state = (mount url r).state := rfl
    rw [hid]
    have hstable : Stable (mount url r) := by
      unfold mount
      exact commit_stable _
    calc commit { mount url r with state := (mount url r).state }
        = commit (mount url r) := rfl
      _ = mount url r := commit_of_stable hstable
  refine ⟨?_, ?_, hnone, ?_⟩
  · rw [hmnt]
    simp [render, hne]
  · intro hm
    unfold run
    rw [List.foldl_cons, List.foldl_nil, hmnt]
    simp only [step]
    have hload : onIframeLoad (some t) (⟨true, false, none, none, false⟩ : MState) =
        ⟨false, true, none, none, false⟩ := by
      have he : onIframeLoad (some t) (⟨true, false, none, none, false⟩ : MState) =
          if errorMarkers t then handleIframeError ⟨true, false, none, none, false⟩
          else ⟨true, false, none, none, false⟩ := rfl
      rw [he, if_pos hm]
      rfl
    rw [hload]
    have hstable : Stable ⟨url, r, ⟨false, true, none, none, false⟩, [], [],
        some (true, r), some (false, fullResumeUrl url r, none, none)⟩ := by
      constructor
      · show some ((true : Bool), r) = some (detectedIsPDF r, r)
        rw [h]
      · show some ((false : Bool), fullResumeUrl url r, (none : Option String),
          (none : Option String)) = some (isDocx r, fullResumeUrl url r, none, none)
        rw [hdx]
    rw [commit_of_stable hstable]
    simp [render, hne, hdx]
  · rw [hnone, hmnt]
    simp [render, hne]

theorem C9_iframe_verification_witness :
    errorMarkers "404 Not Found" = true ∧
    render (run "http://h" "cv.pdf" [Ev.iframeLoad (some "404 Not Found")]) =
      View.unsupportedPanel true (fullResumeUrl "http://h" "cv.pdf") (fileName "cv.pdf") :=
  ⟨by decide,
   (C9_iframe_verification "http://h" "cv.pdf" "404 Not Found" (by decide)).2.1 (by decide)⟩

/-- C10: on the native path the post-load reclassification to failed happens
exactly when the embedded document is accessible and its body text contains one
of the literal case-sensitive substrings `404`, `Not Found`, `Error`; in
particular lower-case `error page` triggers nothing, while an ordinary page
whose text merely contains `Error` (here `Measurement Error analysis`) is
reclassified and the fallback panel replaces a correctly loading PDF. -/
theorem C10_marker_reclassification :
    (∀ (doc : Option String) (s : MState), s.isPDF = true → s.loadError = false →
      ((onIframeLoad doc s).loadError = true ↔
        ∃ t, doc = some t ∧
          (hasSubStr "404" t = true ∨ hasSubStr "Not Found" t = true ∨
            hasSubStr "Error" t = true))) ∧
    errorMarkers "error page" = false ∧
    render (run "http://h" "cv.pdf" [Ev.iframeLoad (some "Measurement Error analysis")]) =
      View.unsupportedPanel true "http://h/uploads/cv.pdf" "cv.pdf" := by
  refine ⟨?_, by decide, by decide⟩
  intro doc s hp hl
  cases doc with
  | none =>
    simp only [onIframeLoad, hl]
    constructor
    · intro hfalse
      cases hfalse
    · rintro ⟨t, ht, _⟩
      cases ht
  | some t =>
    have he : onIframeLoad (some t) s =
        if errorMarkers t then handleIframeError s else s := rfl
    rw [he]
    by_cases hm : errorMarkers t = true
    · rw [if_pos hm]
      have hmm := hm
      unfold errorMarkers at hmm
      simp only [Bool.or_eq_true] at hmm
      constructor
      · intro _
        exact ⟨t, rfl, by tauto⟩
      · intro _
        rfl
    · rw [if_neg hm]
      constructor
      · intro hcontra
        rw [hl] at hcontra
        cases hcontra
      · rintro ⟨t2, ht2, hmark⟩
        cases ht2
        exfalso
        apply hm
        unfold errorMarkers
        simp only [Bool.or_eq_true]
        tauto

theorem C10_marker_reclassification_witness :
    (onIframeLoad (some "contains Error text") ⟨true, false, none, none, false⟩).loadError
      = true :=
  (C10_marker_reclassification.1 (some "contains Error text")
    ⟨true, false, none, none, false⟩ rfl rfl).mpr
    ⟨"contains Error text", rfl, Or.inr (Or.inr (by decide))⟩

end RM
